import Mathlib

set_option maxRecDepth 100000

/-!
Shallow embedding of `Sources/_ImageryInternals/Implementation+COFF.cpp`
(the Windows/COFF backend of the image/section lookup subsystem).

An image is modelled as a numeric base address together with the byte
contents of its mapped extent.  All header reads performed by
`sml_findSection` are byte reads at base-relative offsets, decoded
little-endian, exactly as the C code's `reinterpret_cast` field accesses
do on the PE/COFF layouts:
  * `IMAGE_DOS_HEADER.e_lfanew`  : 4 bytes (signed LONG) at offset 60;
  * `IMAGE_NT_HEADERS.Signature` : 4 bytes at `e_lfanew`;
  * `FileHeader.NumberOfSections`: 2 bytes at `e_lfanew + 6`;
  * `FileHeader.SizeOfOptionalHeader` : 2 bytes at `e_lfanew + 20`;
  * section table (`IMAGE_FIRST_SECTION`) at `e_lfanew + 24 + SizeOfOptionalHeader`,
    entries 40 bytes wide with `Name` at +0 (8 bytes), `Misc.VirtualSize`
    at +8, `VirtualAddress` at +12, `SizeOfRawData` at +16.
Each function that touches image memory also returns the list of
base-relative byte offsets it reads, in order, so that memory-safety
claims about out-of-bounds reads can be stated.
-/

/-- An image: its numeric base address and the bytes of its mapped extent
(`mem.length` is the size of the mapping starting at `base`). -/
structure SMLImage where
  base : Nat
  mem : List Nat
deriving DecidableEq

/-- A located section: absolute start address and size, as written by
`sml_findSection` into `outSection`. -/
structure SMLSection where
  start : Nat
  size : Nat
deriving DecidableEq

/-- One byte of image memory at a base-relative offset.  Offsets past the
mapped extent yield 0 here; whether such an offset is ever read is tracked
separately in the read traces. -/
def readByte (m : List Nat) (off : Nat) : Nat :=
  m.getD off 0

/-- Little-endian decoding of `len` bytes at `off`, as the C code's field
reads of WORD/DWORD/LONG values do. -/
def readLE (m : List Nat) : Nat → Nat → Nat
  | _, 0 => 0
  | off, Nat.succ len => readByte m off + 256 * readLE m (off + 1) len

/-- The base-relative offsets `off, off+1, ..., off+len-1` touched by a
`len`-byte field read. -/
def offsetsOf (off len : Nat) : List Nat :=
  (List.range len).map (fun i => off + i)

/-- Two's-complement reinterpretation of a 32-bit little-endian value as a
signed C `LONG`, used for `e_lfanew`. -/
def toSigned32 (v : Nat) : Int :=
  if v < 2 ^ 31 then (v : Int) else (v : Int) - 2 ^ 32

/-- `std::strncmp(s1, s2, n)`, byte strings given as functions from index
to byte.  Returns the comparison result together with the number of
positions of each string that were accessed: the comparison stops when `n`
is exhausted, when the bytes differ, or at a NUL byte. -/
def strncmpAux (s1 s2 : Nat → Nat) : Nat → Int × Nat
  | 0 => (0, 0)
  | Nat.succ n =>
    if s1 0 ≠ s2 0 then ((s1 0 : Int) - (s2 0 : Int), 1)
    else if s1 0 = 0 then (0, 1)
    else
      let r := strncmpAux (fun i => s1 (i + 1)) (fun i => s2 (i + 1)) n
      (r.1, r.2 + 1)

/-- The bytes of a C string whose content is `s` (the terminating NUL and
everything past it reads as 0). -/
def cstrByte (s : List Nat) (i : Nat) : Nat :=
  s.getD i 0

/-- `section->VirtualAddress`: DWORD at entry offset +12. -/
def entryVA (m : List Nat) (off : Nat) : Nat :=
  readLE m (off + 12) 4

/-- `start` as computed on line 101: `dosHeader` base plus the entry's
virtual address, with 64-bit pointer wraparound. -/
def entryStart (img : SMLImage) (off : Nat) : Nat :=
  (img.base + entryVA img.mem off) % 2 ^ 64

/-- `size` as computed on line 102:
`std::min(section->Misc.VirtualSize, section->SizeOfRawData)`. -/
def entrySize (m : List Nat) (off : Nat) : Nat :=
  min (readLE m (off + 8) 4) (readLE m (off + 16) 4)

/-- The name comparison on line 106:
`0 == std::strncmp(sectionName, thisSectionName, IMAGE_SIZEOF_SHORT_NAME)`
with `IMAGE_SIZEOF_SHORT_NAME = 8` and `thisSectionName = section->Name`. -/
def NameMatch (s : List Nat) (m : List Nat) (off : Nat) : Prop :=
  (strncmpAux (cstrByte s) (fun j => readByte m (off + j)) 8).1 = 0

instance (s m : List Nat) (off : Nat) : Decidable (NameMatch s m off) := by
  unfold NameMatch; infer_instance

/-- All conditions under which the loop body of `sml_findSection` returns
the entry at offset `off`: nonzero virtual address (line 97), non-null
`start` and positive `size` (line 103), and a name match (line 106). -/
def EntryHit (img : SMLImage) (s : List Nat) (off : Nat) : Prop :=
  entryVA img.mem off ≠ 0 ∧ entryStart img off ≠ 0 ∧ 0 < entrySize img.mem off ∧
    NameMatch s img.mem off

instance (img : SMLImage) (s : List Nat) (off : Nat) : Decidable (EntryHit img s off) := by
  unfold EntryHit; infer_instance

/-- The section-table loop of `sml_findSection` (lines 96–112), starting at
entry offset `off` with `k` entries left.  Returns the located section (if
any) and the trace of byte offsets read, in order: the `VirtualAddress`
test on line 97 reads the field once, line 101 reads it again, line 102
reads `VirtualSize` and `SizeOfRawData`, and the `strncmp` on line 106
reads as many `Name` bytes as it compares. -/
def findSectionFrom (img : SMLImage) (s : List Nat) : Nat → Nat → Option SMLSection × List Nat
  | _, 0 => (none, [])
  | off, Nat.succ k =>
    if entryVA img.mem off = 0 then
      let r := findSectionFrom img s (off + 40) k
      (r.1, offsetsOf (off + 12) 4 ++ r.2)
    else
      let t2 := offsetsOf (off + 12) 4 ++ offsetsOf (off + 12) 4 ++
        offsetsOf (off + 8) 4 ++ offsetsOf (off + 16) 4
      if entryStart img off ≠ 0 ∧ 0 < entrySize img.mem off then
        let c := strncmpAux (cstrByte s) (fun j => readByte img.mem (off + j)) 8
        if c.1 = 0 then
          (some ⟨entryStart img off, entrySize img.mem off⟩, t2 ++ offsetsOf off c.2)
        else
          let r := findSectionFrom img s (off + 40) k
          (r.1, t2 ++ offsetsOf off c.2 ++ r.2)
      else
        let r := findSectionFrom img s (off + 40) k
        (r.1, t2 ++ r.2)

/-- The header validation of `sml_findSection` (lines 84–92): fail if
`e_lfanew <= 0`, if the NT header pointer is null, or if the `Signature`
field differs from `IMAGE_NT_SIGNATURE = 0x4550`; otherwise yield the
NT header's base-relative offset. -/
def checkHeaders (img : SMLImage) : Option Nat :=
  let e := toSigned32 (readLE img.mem 60 4)
  if e ≤ 0 then none
  else if (img.base + e.toNat) % 2 ^ 64 = 0 then none
  else if readLE img.mem e.toNat 4 ≠ 0x4550 then none
  else some e.toNat

/-- `sml_findSection` (lines 83–115).  Returns the located section (`none`
models returning `false`, `some` models returning `true` with `outSection`
filled in) together with the ordered trace of base-relative byte offsets
read from the image.  The `!ntHeader` test on line 90 short-circuits, so a
null NT header pointer fails before the `Signature` field is read. -/
def sml_findSection (img : SMLImage) (sectionName : List Nat) : Option SMLSection × List Nat :=
  let e := toSigned32 (readLE img.mem 60 4)
  if e ≤ 0 then (none, offsetsOf 60 4)
  else if (img.base + e.toNat) % 2 ^ 64 = 0 then (none, offsetsOf 60 4)
  else if readLE img.mem e.toNat 4 ≠ 0x4550 then (none, offsetsOf 60 4 ++ offsetsOf e.toNat 4)
  else
    let r := findSectionFrom img sectionName
      (e.toNat + 24 + readLE img.mem (e.toNat + 20) 2) (readLE img.mem (e.toNat + 6) 2)
    (r.1, offsetsOf 60 4 ++ offsetsOf e.toNat 4 ++ offsetsOf (e.toNat + 6) 2 ++
      offsetsOf (e.toNat + 20) 2 ++ r.2)

/-- `sml_copyImageName` (lines 78–79).  The function's body is empty: no
control path executes a `return` statement, so no well-defined
`wchar_t *` value is ever produced; `none` models the absence of a
returned value. -/
def sml_copyImageName (_image : SMLImage) : Option Nat :=
  none

/-- The visitor loop of `sml_enumerateImages` (lines 44–52): visit each
module handle in order, threading the caller's context state `s` through
`body` (whose second component models writing `true` through the `stop`
pointer), and stop after the first visit that sets the stop flag.  Returns
the final state and the handles visited, in order. -/
def enumLoop {σ : Type} : List Nat → σ → (σ → Nat → σ × Bool) → σ × List Nat
  | [], s, _ => (s, [])
  | m :: rest, s, body =>
    let r := body s m
    if r.2 then (r.1, [m])
    else
      let t := enumLoop rest r.1 body
      (t.1, m :: t.2)

/-- `sml_enumerateImages` (lines 35–53).  The OS module snapshot is the
list `allMods` of module handles and `ok` models the success of
`EnumProcessModules`, whose documented semantics fill the 1024-entry
buffer with as many handles as fit and report the total byte count needed
(`sizeof(HMODULE) = 8`).  On failure the function returns at once (line
40); otherwise `hModuleCount = min(1024, byteCountNeeded / 8)` entries are
visited (lines 42–52). -/
def sml_enumerateImages {σ : Type} (allMods : List Nat) (ok : Bool) (s : σ)
    (body : σ → Nat → σ × Bool) : σ × List Nat :=
  if !ok then (s, [])
  else enumLoop ((allMods.take 1024).take (min 1024 (allMods.length * 8 / 8))) s body

/-- Index of the first visit at which the visitor sets the stop flag, with
the context state threaded exactly as the loop threads it. -/
def firstStop {σ : Type} (body : σ → Nat → σ × Bool) : σ → List Nat → Option Nat
  | _, [] => none
  | s, m :: rest =>
    let r := body s m
    if r.2 then some 0 else (firstStop body r.1 rest).map (fun i => i + 1)

-- MARK: test-image construction helpers

/-- Little-endian bytes of a 16-bit value. -/
def le2 (v : Nat) : List Nat :=
  [v % 256, v / 256 % 256]

/-- Little-endian bytes of a 32-bit value. -/
def le4 (v : Nat) : List Nat :=
  [v % 256, v / 256 % 256, v / 65536 % 256, v / 16777216 % 256]

/-- An 8-byte section name field: the name, NUL-padded. -/
def pad8 (name : List Nat) : List Nat :=
  name.take 8 ++ List.replicate (8 - name.length) 0

/-- A 40-byte section-table entry with the given name field, virtual size,
virtual address and raw-data size (remaining fields zero). -/
def secEntry (name : List Nat) (vsize va rsize : Nat) : List Nat :=
  pad8 name ++ le4 vsize ++ le4 va ++ le4 rsize ++ List.replicate 20 0

/-- A well-formed test image: DOS header with `e_lfanew = 64`, NT header
with valid signature, zero-size optional header (so the section table
starts at offset 88) and the given section-table entries. -/
def mkImage (base : Nat) (entries : List (List Nat)) : SMLImage :=
  ⟨base,
    List.replicate 60 0 ++ le4 64 ++ le4 0x4550 ++ [0, 0] ++ le2 entries.length ++
      List.replicate 12 0 ++ le2 0 ++ [0, 0] ++ entries.flatten⟩

/-- The NUL-terminated prefix of a byte string, clamped to `n` bytes: the
bytes before the first NUL among the first `n`. -/
def cstrTake : Nat → (Nat → Nat) → List Nat
  | 0, _ => []
  | Nat.succ n, f => if f 0 = 0 then [] else f 0 :: cstrTake n (fun i => f (i + 1))

/-- `sec` is the section produced from the first of `k` section-table
entries (starting at offset `off`) satisfying all of the loop's
conditions: this is the spec's description of what `sml_findSection`
returns on success. -/
def FirstHitAt (img : SMLImage) (s : List Nat) (off k : Nat) (sec : SMLSection) : Prop :=
  ∃ i, i < k ∧ EntryHit img s (off + 40 * i) ∧
    (∀ j, j < i → ¬ EntryHit img s (off + 40 * j)) ∧
    sec = ⟨entryStart img (off + 40 * i), entrySize img.mem (off + 40 * i)⟩

/-- Test image with a single section whose 8-byte name field is
`"AB\0X"` NUL-padded: it agrees with the request `"AB"` up to the
embedded NUL at index 2 but differs at index 3. -/
def imgAB : SMLImage :=
  mkImage 4194304 [secEntry [65, 66, 0, 88] 16 256 32]

/-- Test image with a single section whose 8-byte name field is the full
8 non-NUL bytes `"ABCDEFGH"`. -/
def img8 : SMLImage :=
  mkImage 4194304 [secEntry [65, 66, 67, 68, 69, 70, 71, 72] 16 256 32]

/-- Test image whose single matching section declares a virtual address
(`0x100000`) far beyond the image's 128-byte mapped extent. -/
def imgC3 : SMLImage :=
  mkImage 4194304 [secEntry [84, 68] 16 1048576 32]

/-- A 64-byte image that is all zeros except `e_lfanew = 4096`, pointing
far outside the mapped extent. -/
def imgC6 : SMLImage :=
  ⟨4194304, List.replicate 60 0 ++ le4 4096⟩

-- MARK: basic lemmas about byte reads

theorem readByte_replicate_zero (n off : Nat) : readByte (List.replicate n 0) off = 0 := by
  induction n generalizing off with
  | zero => simp [readByte]
  | succ n ih =>
    cases off with
    | zero => simp [readByte, List.replicate_succ]
    | succ off =>
      have h := ih off
      simp only [readByte, List.replicate_succ, List.getD_cons_succ] at h ⊢
      exact h

theorem readLE_replicate_zero (n : Nat) : ∀ len off, readLE (List.replicate n 0) off len = 0 := by
  intro len
  induction len with
  | zero => intro off; simp [readLE]
  | succ len ih => intro off; simp [readLE, readByte_replicate_zero, ih]

theorem readByte_of_le (m : List Nat) (off : Nat) (h : m.length ≤ off) : readByte m off = 0 := by
  unfold readByte
  exact List.getD_eq_default _ _ h

theorem readLE_of_le (m : List Nat) : ∀ len off, m.length ≤ off → readLE m off len = 0 := by
  intro len
  induction len with
  | zero => intro off _; simp [readLE]
  | succ len ih =>
    intro off h
    simp [readLE, readByte_of_le m off h, ih (off + 1) (by omega)]

theorem readByte_lt (m : List Nat) (hb : ∀ b ∈ m, b < 256) (off : Nat) : readByte m off < 256 := by
  induction m generalizing off with
  | nil => simp [readByte]
  | cons b m ih =>
    cases off with
    | zero => simpa [readByte] using hb b (by simp)
    | succ off =>
      have := ih (fun x hx => hb x (by simp [hx])) off
      simpa [readByte] using this

theorem readLE_lt (m : List Nat) (hb : ∀ b ∈ m, b < 256) :
    ∀ len off, readLE m off len < 256 ^ len := by
  intro len
  induction len with
  | zero => intro off; simp [readLE]
  | succ len ih =>
    intro off
    have h1 := readByte_lt m hb off
    have h2 := ih (off + 1)
    have h3 : (256 : Nat) ^ (len + 1) = 256 * 256 ^ len := by ring
    simp only [readLE]
    omega

-- MARK: the strncmp name comparison

theorem strncmpAux_eq_zero_iff :
    ∀ (n : Nat) (f g : Nat → Nat), (strncmpAux f g n).1 = 0 ↔ cstrTake n f = cstrTake n g := by
  intro n
  induction n with
  | zero => intro f g; simp [strncmpAux, cstrTake]
  | succ n ih =>
    intro f g
    by_cases h : f 0 = g 0
    · by_cases h0 : f 0 = 0
      · have h1 : g 0 = 0 := h ▸ h0
        simp [strncmpAux, cstrTake, h, h0, h1]
      · have h1 : g 0 ≠ 0 := fun hg => h0 (h.trans hg)
        simp only [strncmpAux, cstrTake, h, ne_eq, not_true_eq_false, if_false,
          if_neg h0, if_neg h1]
        simp [ih]
    · constructor
      · intro hL
        exfalso
        have hne : (f 0 : Int) - g 0 ≠ 0 := sub_ne_zero.mpr (by exact_mod_cast h)
        have : (strncmpAux f g (n + 1)).1 = (f 0 : Int) - g 0 := by
          simp [strncmpAux, h]
        exact hne (this ▸ hL)
      · intro hR
        exfalso
        by_cases h0 : f 0 = 0 <;> by_cases h1 : g 0 = 0
        · exact h (h0.trans h1.symm)
        · simp [cstrTake, h0, h1] at hR
        · simp [cstrTake, h0, h1] at hR
        · simp only [cstrTake, if_neg h0, if_neg h1, List.cons.injEq] at hR
          exact h hR.1

theorem cstrTake_of_nonzero :
    ∀ (n : Nat) (f : Nat → Nat), (∀ j, j < n → f j ≠ 0) →
      cstrTake n f = (List.range n).map f := by
  intro n
  induction n with
  | zero => intro f _; simp [cstrTake]
  | succ n ih =>
    intro f hf
    rw [List.range_succ_eq_map]
    simp only [cstrTake, List.map_cons, List.map_map]
    rw [if_neg (hf 0 (by omega))]
    congr 1
    have := ih (fun i => f (i + 1)) (fun j hj => hf (j + 1) (by omega))
    rw [this]
    rfl

theorem cstrTake_eq_map_iff :
    ∀ (n : Nat) (f g : Nat → Nat), (∀ j, j < n → f j ≠ 0) →
      (cstrTake n g = (List.range n).map f ↔ ∀ j, j < n → g j = f j) := by
  intro n
  induction n with
  | zero => intro f g _; simp [cstrTake]
  | succ n ih =>
    intro f g hf
    rw [List.range_succ_eq_map]
    simp only [cstrTake, List.map_cons, List.map_map]
    by_cases hg : g 0 = 0
    · rw [if_pos hg]
      constructor
      · intro hR; exact absurd hR.symm (by simp)
      · intro hR; exact absurd (hg ▸ hR 0 (by omega)) (fun e => hf 0 (by omega) e.symm)
    · rw [if_neg hg]
      have hih := ih (fun i => f (i + 1)) (fun i => g (i + 1)) (fun j hj => hf (j + 1) (by omega))
      constructor
      · intro hR
        rw [List.cons.injEq] at hR
        intro j hj
        match j with
        | 0 => exact hR.1
        | Nat.succ j =>
          have htail : cstrTake n (fun i => g (i + 1)) = (List.range n).map (fun i => f (i + 1)) := by
            rw [hR.2]; rfl
          exact hih.mp htail j (by omega)
      · intro hR
        rw [List.cons.injEq]
        refine ⟨hR 0 (by omega), ?_⟩
        have htail : cstrTake n (fun i => g (i + 1)) = (List.range n).map (fun i => f (i + 1)) :=
          hih.mpr (fun j hj => hR (j + 1) (by omega))
        rw [htail]
        rfl

-- MARK: shifting the section-table scan by one entry

theorem forall_hit_shift (img : SMLImage) (s : List Nat) (off k : Nat)
    (h0 : ¬ EntryHit img s off) :
    (∀ i, i < k → ¬ EntryHit img s (off + 40 + 40 * i)) ↔
      (∀ i, i < k + 1 → ¬ EntryHit img s (off + 40 * i)) := by
  constructor
  · intro H i hi
    match i with
    | 0 => simpa using h0
    | Nat.succ j =>
      have e : off + 40 * (j + 1) = off + 40 + 40 * j := by ring
      rw [e]
      exact H j (by omega)
  · intro H i hi
    have e : off + 40 + 40 * i = off + 40 * (i + 1) := by ring
    rw [e]
    exact H (i + 1) (by omega)

theorem firstHitAt_shift (img : SMLImage) (s : List Nat) (off k : Nat) (sec : SMLSection)
    (h0 : ¬ EntryHit img s off) :
    FirstHitAt img s (off + 40) k sec ↔ FirstHitAt img s off (k + 1) sec := by
  constructor
  · rintro ⟨i, hik, hit, hmin, hsec⟩
    refine ⟨i + 1, by omega, ?_, ?_, ?_⟩
    · have e : off + 40 * (i + 1) = off + 40 + 40 * i := by ring
      rw [e]; exact hit
    · intro j hj
      match j with
      | 0 => simpa using h0
      | Nat.succ j' =>
        have e : off + 40 * (j' + 1) = off + 40 + 40 * j' := by ring
        rw [e]; exact hmin j' (by omega)
    · have e : off + 40 * (i + 1) = off + 40 + 40 * i := by ring
      rw [e]; exact hsec
  · rintro ⟨i, hik, hit, hmin, hsec⟩
    match i with
    | 0 => exact absurd (by simpa using hit) h0
    | Nat.succ i' =>
      refine ⟨i', by omega, ?_, ?_, ?_⟩
      · have e : off + 40 + 40 * i' = off + 40 * (i' + 1) := by ring
        rw [e]; exact hit
      · intro j hj
        have e : off + 40 + 40 * j = off + 40 * (j + 1) := by ring
        rw [e]; exact hmin (j + 1) (by omega)
      · have e : off + 40 + 40 * i' = off + 40 * (i' + 1) := by ring
        rw [e]; exact hsec

-- MARK: what the section-table loop returns

theorem findSectionFrom_none_iff (img : SMLImage) (s : List Nat) :
    ∀ k off, (findSectionFrom img s off k).1 = none ↔
      ∀ i, i < k → ¬ EntryHit img s (off + 40 * i) := by
  intro k
  induction k with
  | zero => intro off; simp [findSectionFrom]
  | succ k ih =>
    intro off
    simp only [findSectionFrom]
    split_ifs with hva hcond hc
    · dsimp only
      rw [ih (off + 40)]
      exact forall_hit_shift img s off k (fun hh => hh.1 hva)
    · constructor
      · intro h; simp at h
      · intro H
        have h0 := H 0 (by omega)
        rw [Nat.mul_zero, Nat.add_zero] at h0
        exact absurd ⟨hva, hcond.1, hcond.2, hc⟩ h0
    · dsimp only
      rw [ih (off + 40)]
      exact forall_hit_shift img s off k (fun hh => hc hh.2.2.2)
    · dsimp only
      rw [ih (off + 40)]
      exact forall_hit_shift img s off k (fun hh => hcond ⟨hh.2.1, hh.2.2.1⟩)

theorem findSectionFrom_some_iff (img : SMLImage) (s : List Nat) :
    ∀ k off sec, (findSectionFrom img s off k).1 = some sec ↔ FirstHitAt img s off k sec := by
  intro k
  induction k with
  | zero =>
    intro off sec
    simp [findSectionFrom, FirstHitAt]
  | succ k ih =>
    intro off sec
    simp only [findSectionFrom]
    split_ifs with hva hcond hc
    · dsimp only
      rw [ih (off + 40) sec]
      exact firstHitAt_shift img s off k sec (fun hh => hh.1 hva)
    · constructor
      · intro h
        have hsec : sec = ⟨entryStart img off, entrySize img.mem off⟩ :=
          (Option.some.inj h).symm
        exact ⟨0, by omega,
          by rw [Nat.mul_zero, Nat.add_zero]; exact ⟨hva, hcond.1, hcond.2, hc⟩,
          fun j hj => absurd hj (by omega),
          by rw [Nat.mul_zero, Nat.add_zero]; exact hsec⟩
      · rintro ⟨i, hik, hit, hmin, hsec⟩
        have hi0 : i = 0 := by
          by_contra hne
          have h0 := hmin 0 (by omega)
          rw [Nat.mul_zero, Nat.add_zero] at h0
          exact h0 ⟨hva, hcond.1, hcond.2, hc⟩
        subst hi0
        simp only [Nat.mul_zero, Nat.add_zero] at hsec
        rw [hsec]
    · dsimp only
      rw [ih (off + 40) sec]
      exact firstHitAt_shift img s off k sec (fun hh => hc hh.2.2.2)
    · dsimp only
      rw [ih (off + 40) sec]
      exact firstHitAt_shift img s off k sec (fun hh => hcond ⟨hh.2.1, hh.2.2.1⟩)

-- MARK: header validation versus the full function

theorem sml_findSection_none_of_checkHeaders (img : SMLImage) (s : List Nat)
    (h : checkHeaders img = none) : (sml_findSection img s).1 = none := by
  simp only [checkHeaders] at h
  simp only [sml_findSection]
  split_ifs at h ⊢ <;> rfl

theorem sml_findSection_eq_loop (img : SMLImage) (s : List Nat) (ntOff : Nat)
    (h : checkHeaders img = some ntOff) :
    (sml_findSection img s).1 =
      (findSectionFrom img s (ntOff + 24 + readLE img.mem (ntOff + 20) 2)
        (readLE img.mem (ntOff + 6) 2)).1 := by
  simp only [checkHeaders] at h
  simp only [sml_findSection]
  split_ifs at h ⊢
  obtain rfl := Option.some.inj h
  rfl

-- MARK: further helpers

theorem getD_mem_of_lt (l : List Nat) (j : Nat) (h : j < l.length) : l.getD j 0 ∈ l := by
  induction l generalizing j with
  | nil => simp at h
  | cons a l ih =>
    cases j with
    | zero => simp [List.getD_cons_zero]
    | succ j =>
      rw [List.getD_cons_succ]
      have hl : j < l.length := by simp [List.length_cons] at h; omega
      exact List.mem_cons_of_mem a (ih j hl)

theorem entryHit_size_pos_start_gt_base (img : SMLImage) (s : List Nat) (off : Nat)
    (hbytes : ∀ b ∈ img.mem, b < 256) (hnowrap : img.base + 2 ^ 32 ≤ 2 ^ 64)
    (hit : EntryHit img s off) :
    0 < entrySize img.mem off ∧ img.base < entryStart img off := by
  obtain ⟨hva, _, hsize, _⟩ := hit
  refine ⟨hsize, ?_⟩
  have h2 := readLE_lt img.mem hbytes 4 (off + 12)
  have h3 : (256 : Nat) ^ 4 = 2 ^ 32 := by norm_num
  rw [h3] at h2
  have hva' : entryVA img.mem off < 2 ^ 32 := h2
  have hva0 : 0 < entryVA img.mem off := Nat.pos_of_ne_zero hva
  have e32 : (2 : Nat) ^ 32 = 4294967296 := by norm_num
  have e64 : (2 : Nat) ^ 64 = 18446744073709551616 := by norm_num
  have h4 : img.base + entryVA img.mem off < 2 ^ 64 := by
    rw [e32] at hva' hnowrap
    rw [e64] at hnowrap ⊢
    omega
  unfold entryStart
  rw [Nat.mod_eq_of_lt h4]
  omega

theorem enumLoop_visits {σ : Type} (body : σ → Nat → σ × Bool) :
    ∀ (l : List Nat) (s : σ),
      (enumLoop l s body).2 =
        match firstStop body s l with
        | none => l
        | some k => l.take (k + 1) := by
  intro l
  induction l with
  | nil => intro s; simp [enumLoop, firstStop]
  | cons m rest ih =>
    intro s
    simp only [enumLoop, firstStop]
    by_cases hstop : (body s m).2
    · rw [if_pos hstop, if_pos hstop]; rfl
    · rw [if_neg hstop, if_neg hstop]
      dsimp only
      rw [ih (body s m).1]
      cases hfs : firstStop body (body s m).1 rest with
      | none => simp [hfs]
      | some k => simp [hfs, List.take_succ_cons]

theorem enumLoop_prefix {σ : Type} (body : σ → Nat → σ × Bool) :
    ∀ (l : List Nat) (s : σ),
      (enumLoop l s body).2 = l.take ((enumLoop l s body).2).length := by
  intro l
  induction l with
  | nil => intro s; simp [enumLoop]
  | cons m rest ih =>
    intro s
    simp only [enumLoop]
    by_cases hstop : (body s m).2
    · rw [if_pos hstop]; rfl
    · rw [if_neg hstop]
      dsimp only
      rw [List.length_cons, List.take_succ_cons]
      congr 1
      exact ih (body s m).1

theorem enumLoop_length_le {σ : Type} (body : σ → Nat → σ × Bool) :
    ∀ (l : List Nat) (s : σ), ((enumLoop l s body).2).length ≤ l.length := by
  intro l
  induction l with
  | nil => intro s; simp [enumLoop]
  | cons m rest ih =>
    intro s
    simp only [enumLoop]
    by_cases hstop : (body s m).2
    · rw [if_pos hstop]; simp
    · rw [if_neg hstop]
      dsimp only
      rw [List.length_cons, List.length_cons]
      exact Nat.succ_le_succ (ih (body s m).1)

theorem enum_true_eq {σ : Type} (mods : List Nat) (s : σ) (body : σ → Nat → σ × Bool) :
    sml_enumerateImages mods true s body = enumLoop (mods.take 1024) s body := by
  simp only [sml_enumerateImages, Bool.not_true, Bool.false_eq_true, if_false]
  congr 1
  have h8 : mods.length * 8 / 8 = mods.length := by omega
  rw [h8, List.take_take]
  have hm : min (min 1024 mods.length) 1024 = min 1024 mods.length := by omega
  rw [hm]
  rcases le_or_lt mods.length 1024 with hL | hL
  · have h1 : min 1024 mods.length = mods.length := by omega
    rw [h1, List.take_length, List.take_of_length_le hL]
  · have h1 : min 1024 mods.length = 1024 := by omega
    rw [h1]

-- MARK: claims

/-- C1 counterexample: the requested name `"AB"` and the section's 8-byte
name field `"AB\0X"` agree up to the embedded NUL at index 2 but differ at
index 3 (0 versus 88), yet `sml_findSection` reports them equal and
returns the section — so the comparison is not an exact 8-byte
comparison. -/
theorem findSection_matches_despite_difference_after_nul :
    (sml_findSection imgAB [65, 66]).1 = some ⟨4194560, 16⟩ ∧
      readByte imgAB.mem (88 + 2) = 0 ∧ cstrByte [65, 66] 2 = 0 ∧
      readByte imgAB.mem (88 + 3) = 88 ∧ cstrByte [65, 66] 3 = 0 := by
  decide

/-- C1 amended: the name comparison of `sml_findSection` is `strncmp`
bounded at 8 bytes, which stops at the first NUL byte: it tests equality
of the NUL-terminated prefixes of the requested name and of the entry's
name field, clamped to 8 bytes.  Bytes after an embedded NUL are not
compared. -/
theorem nameMatch_iff_nul_terminated_prefixes_eq (s m : List Nat) (off : Nat) :
    NameMatch s m off ↔
      cstrTake 8 (cstrByte s) = cstrTake 8 (fun j => readByte m (off + j)) :=
  strncmpAux_eq_zero_iff 8 (cstrByte s) (fun j => readByte m (off + j))

/-- C2 counterexample: a 9-byte requested name whose first 8 bytes equal
the section's full 8-byte (non-NUL) name field does match: the `strncmp`
bound of 8 stops the comparison before the request's 9th byte. -/
theorem findSection_nine_byte_request_matches :
    8 < ([65, 66, 67, 68, 69, 70, 71, 72, 73] : List Nat).length ∧
      (sml_findSection img8 [65, 66, 67, 68, 69, 70, 71, 72, 73]).1 =
        some ⟨4194560, 16⟩ := by
  decide

/-- C2 amended: a requested name strictly longer than 8 bytes matches a
section-table entry's name field exactly when all 8 field bytes equal the
request's first 8 bytes (in particular, the field contains no NUL); such
a request therefore can match, and not-found is only guaranteed when no
entry's name field equals the request's first 8 bytes. -/
theorem nameMatch_long_request_iff_first_eight (s m : List Nat) (off : Nat)
    (hlen : 8 < s.length) (hnz : ∀ b ∈ s, b ≠ 0) :
    NameMatch s m off ↔ ∀ j, j < 8 → readByte m (off + j) = s.getD j 0 := by
  have hf : ∀ j, j < 8 → cstrByte s j ≠ 0 :=
    fun j hj => hnz (s.getD j 0) (getD_mem_of_lt s j (by omega))
  unfold NameMatch
  rw [strncmpAux_eq_zero_iff, cstrTake_of_nonzero 8 (cstrByte s) hf, eq_comm,
    cstrTake_eq_map_iff 8 (cstrByte s) (fun j => readByte m (off + j)) hf]
  exact Iff.rfl

/-- C2 amended, witness at a concrete image and 9-byte request. -/
theorem nameMatch_long_request_iff_first_eight_witness :
    NameMatch [65, 66, 67, 68, 69, 70, 71, 72, 73] img8.mem 88 ↔
      ∀ j, j < 8 → readByte img8.mem (88 + j) =
        ([65, 66, 67, 68, 69, 70, 71, 72, 73] : List Nat).getD j 0 :=
  nameMatch_long_request_iff_first_eight [65, 66, 67, 68, 69, 70, 71, 72, 73] img8.mem 88
    (by decide) (by decide)

/-- C3 counterexample: a matching section entry declaring a virtual
address far beyond the image's 128-byte mapped extent is returned
unchecked, with a start address outside `[base, base + size-of-mapping)`:
`sml_findSection` never consults the image's mapped size. -/
theorem findSection_start_outside_mapped_extent :
    (sml_findSection imgC3 [84, 68]).1 = some ⟨5242880, 16⟩ ∧
      imgC3.base + imgC3.mem.length ≤ 5242880 := by
  decide

/-- C3 amended: whenever `sml_findSection` succeeds, the returned section
has `size > 0` and its start is `base + VirtualAddress` with a nonzero
virtual address, hence strictly above the image base (absent 64-bit
wraparound); no upper bound against the image's mapped extent is
enforced. -/
theorem findSection_success_size_pos_start_gt_base (img : SMLImage) (s : List Nat)
    (sec : SMLSection) (hbytes : ∀ b ∈ img.mem, b < 256)
    (hnowrap : img.base + 2 ^ 32 ≤ 2 ^ 64)
    (h : (sml_findSection img s).1 = some sec) :
    0 < sec.size ∧ img.base < sec.start := by
  cases hch : checkHeaders img with
  | none =>
    rw [sml_findSection_none_of_checkHeaders img s hch] at h
    exact Option.noConfusion h
  | some ntOff =>
    rw [sml_findSection_eq_loop img s ntOff hch, findSectionFrom_some_iff] at h
    obtain ⟨i, hik, hit, hmin, hsec⟩ := h
    have hb := entryHit_size_pos_start_gt_base img s
      (ntOff + 24 + readLE img.mem (ntOff + 20) 2 + 40 * i) hbytes hnowrap hit
    rw [hsec]
    exact hb

/-- C3 amended, witness at a concrete image. -/
theorem findSection_success_size_pos_start_gt_base_witness :
    0 < (SMLSection.mk 4194560 16).size ∧ imgAB.base < (SMLSection.mk 4194560 16).start :=
  findSection_success_size_pos_start_gt_base imgAB [65, 66] ⟨4194560, 16⟩
    (by decide) (by decide) (by decide)

/-- C4: for an image whose DOS header and NT signature validate,
`sml_findSection` returns exactly the section built from the first
section-table entry (in table order, up to `NumberOfSections`) that has a
nonzero virtual address, non-null start, positive
`min(VirtualSize, SizeOfRawData)` and a matching name — with `start` the
base plus the entry's virtual address and `size` that minimum — and
returns not-found exactly when no entry in the table qualifies. -/
theorem findSection_first_match_characterization (img : SMLImage) (s : List Nat)
    (ntOff : Nat) (h : checkHeaders img = some ntOff) :
    (∀ sec, (sml_findSection img s).1 = some sec ↔
      FirstHitAt img s (ntOff + 24 + readLE img.mem (ntOff + 20) 2)
        (readLE img.mem (ntOff + 6) 2) sec) ∧
    ((sml_findSection img s).1 = none ↔
      ∀ i, i < readLE img.mem (ntOff + 6) 2 →
        ¬ EntryHit img s (ntOff + 24 + readLE img.mem (ntOff + 20) 2 + 40 * i)) := by
  constructor
  · intro sec
    rw [sml_findSection_eq_loop img s ntOff h, findSectionFrom_some_iff]
  · rw [sml_findSection_eq_loop img s ntOff h, findSectionFrom_none_iff]

/-- C4, witness at a concrete valid image with one matching entry. -/
theorem findSection_first_match_characterization_witness :
    FirstHitAt imgAB [65, 66] (64 + 24 + readLE imgAB.mem (64 + 20) 2)
      (readLE imgAB.mem (64 + 6) 2) ⟨4194560, 16⟩ :=
  ((findSection_first_match_characterization imgAB [65, 66] 64 (by decide)).1
    ⟨4194560, 16⟩).mp (by decide)

/-- C5: under the physical constraint that the mapped extent fits in the
64-bit address space, the header-validation phase of `sml_findSection`
fails exactly when the DOS header's `e_lfanew` is not strictly positive
or the NT header's `Signature` differs from `IMAGE_NT_SIGNATURE`; and any
such failure is the returned `none` of the total function — never a
fault. -/
theorem checkHeaders_none_iff_invalid_format (img : SMLImage)
    (hfit : img.base + img.mem.length ≤ 2 ^ 64) :
    (checkHeaders img = none ↔
      toSigned32 (readLE img.mem 60 4) ≤ 0 ∨
        readLE img.mem (toSigned32 (readLE img.mem 60 4)).toNat 4 ≠ 0x4550) ∧
    ∀ s, checkHeaders img = none → (sml_findSection img s).1 = none := by
  refine ⟨⟨?_, ?_⟩, fun s h => sml_findSection_none_of_checkHeaders img s h⟩
  · intro h
    simp only [checkHeaders] at h
    split_ifs at h with h1 h2 h3
    · exact Or.inl h1
    · right
      have e64 : (2 : Nat) ^ 64 = 18446744073709551616 := by norm_num
      rw [e64] at h2 hfit
      have h0 : 0 < (toSigned32 (readLE img.mem 60 4)).toNat := by omega
      have hnt : img.mem.length ≤ (toSigned32 (readLE img.mem 60 4)).toNat := by omega
      rw [readLE_of_le img.mem 4 (toSigned32 (readLE img.mem 60 4)).toNat hnt]
      omega
    · exact Or.inr h3
  · intro h
    simp only [checkHeaders]
    split_ifs with h1 h2 h3
    · rfl
    · rfl
    · rfl
    · rcases h with h | h
      · exact absurd h h1
      · exact absurd h h3

/-- C5, witness: an all-zero 64-byte image fails header validation, with
`e_lfanew = 0` not strictly positive. -/
theorem checkHeaders_none_iff_invalid_format_witness :
    checkHeaders ⟨0, List.replicate 64 0⟩ = none ∧
      (sml_findSection ⟨0, List.replicate 64 0⟩ [65]).1 = none :=
  ⟨(checkHeaders_none_iff_invalid_format ⟨0, List.replicate 64 0⟩ (by decide)).1.mpr
      (Or.inl (by decide)),
    (checkHeaders_none_iff_invalid_format ⟨0, List.replicate 64 0⟩ (by decide)).2 [65]
      (by decide)⟩

/-- C6 counterexample: a malformed 64-byte image whose `e_lfanew` is the
positive value 4096 makes `sml_findSection` read the would-be `Signature`
field at offsets 4096–4099, far beyond the image's mapped extent: the
header-derived offset is not clamped before being dereferenced. -/
theorem findSection_reads_beyond_extent :
    imgC6.mem.length = 64 ∧ (sml_findSection imgC6 [65]).1 = none ∧
      4096 ∈ (sml_findSection imgC6 [65]).2 ∧ imgC6.mem.length ≤ 4096 := by
  decide

/-- C6 amended: on an all-zero buffer (of any size and at any base),
`sml_findSection` fails and reads only the 4 bytes of the DOS header's
`e_lfanew` field at offsets 60–63; but this locality does not extend to
every malformed input, since a positive out-of-range `e_lfanew` is
dereferenced unclamped. -/
theorem findSection_all_zero_reads_only_lfanew (base n : Nat) (s : List Nat) :
    (sml_findSection ⟨base, List.replicate n 0⟩ s).1 = none ∧
      ∀ x ∈ (sml_findSection ⟨base, List.replicate n 0⟩ s).2, 60 ≤ x ∧ x < 64 := by
  have h0 : readLE (List.replicate n 0) 60 4 = 0 := readLE_replicate_zero n 4 60
  have hres : sml_findSection ⟨base, List.replicate n 0⟩ s = (none, offsetsOf 60 4) := by
    simp only [sml_findSection, h0]
    rw [if_pos (by decide : toSigned32 0 ≤ 0)]
  rw [hres]
  refine ⟨rfl, ?_⟩
  intro x hx
  simp only [offsetsOf, List.mem_map, List.mem_range] at hx
  obtain ⟨i, hi, rfl⟩ := hx
  omega

/-- C6 amended, witness at a concrete all-zero image and trace offset. -/
theorem findSection_all_zero_reads_only_lfanew_witness :
    (sml_findSection ⟨0, List.replicate 64 0⟩ [65]).1 = none ∧ (60 ≤ 60 ∧ 60 < 64) :=
  ⟨(findSection_all_zero_reads_only_lfanew 0 64 [65]).1,
    (findSection_all_zero_reads_only_lfanew 0 64 [65]).2 60 (by decide)⟩

/-- C7: with a distinct-module snapshot, `sml_enumerateImages` visits the
snapshot's modules in order — each exactly once when no visit sets the
stop flag — and, as soon as some visit sets the stop flag, visits exactly
the modules up to and including that one and no further. -/
theorem enumerateImages_visits_until_stop {σ : Type} (mods : List Nat) (s : σ)
    (body : σ → Nat → σ × Bool) (hnd : mods.Nodup) :
    (firstStop body s (mods.take 1024) = none →
      (sml_enumerateImages mods true s body).2 = mods.take 1024 ∧
        ∀ m ∈ mods.take 1024,
          ((sml_enumerateImages mods true s body).2).count m = 1) ∧
    (∀ k, firstStop body s (mods.take 1024) = some k →
      (sml_enumerateImages mods true s body).2 = (mods.take 1024).take (k + 1)) := by
  have he := enum_true_eq mods s body
  have hv := enumLoop_visits body (mods.take 1024) s
  constructor
  · intro hfs
    simp only [hfs] at hv
    refine ⟨by rw [he]; exact hv, ?_⟩
    intro m hm
    rw [he, hv]
    exact List.count_eq_one_of_mem
      (List.Nodup.sublist (List.take_sublist 1024 mods) hnd) hm
  · intro k hfs
    simp only [hfs] at hv
    rw [he]
    exact hv

/-- C7, witness: a three-module snapshot with a never-stopping visitor is
visited in full, each module once. -/
theorem enumerateImages_visits_until_stop_witness :
    (sml_enumerateImages [10, 20, 30] true 0 (fun (u : Nat) (_ : Nat) => (u, false))).2 =
        [10, 20, 30].take 1024 ∧
      ∀ m ∈ [10, 20, 30].take 1024,
        ((sml_enumerateImages [10, 20, 30] true 0
          (fun (u : Nat) (_ : Nat) => (u, false))).2).count m = 1 :=
  (enumerateImages_visits_until_stop [10, 20, 30] 0 (fun u _ => (u, false))
    (by decide)).1 (by decide)

/-- C8: if the OS module-list query fails, `sml_enumerateImages` returns
with the visitor invoked zero times and the context untouched, surfacing
no error; if it succeeds, at most 1024 modules are visited and the
visited modules are exactly an initial prefix of the snapshot — any
modules beyond the 1024-entry buffer capacity are silently dropped. -/
theorem enumerateImages_silent_failure_and_truncation :
    (∀ (σ : Type) (mods : List Nat) (s : σ) (body : σ → Nat → σ × Bool),
        sml_enumerateImages mods false s body = (s, [])) ∧
    (∀ (σ : Type) (mods : List Nat) (s : σ) (body : σ → Nat → σ × Bool),
        ((sml_enumerateImages mods true s body).2).length ≤ 1024 ∧
          (sml_enumerateImages mods true s body).2 =
            mods.take ((sml_enumerateImages mods true s body).2).length) := by
  constructor
  · intro σ mods s body
    rfl
  · intro σ mods s body
    have he := enum_true_eq mods s body
    have hlen : ((enumLoop (mods.take 1024) s body).2).length ≤ 1024 := by
      have h1 := enumLoop_length_le body (mods.take 1024) s
      rw [List.length_take] at h1
      omega
    constructor
    · rw [he]
      exact hlen
    · rw [he]
      have hp := enumLoop_prefix body (mods.take 1024) s
      rw [List.take_take] at hp
      have hmin : min (((enumLoop (mods.take 1024) s body).2).length) 1024 =
          ((enumLoop (mods.take 1024) s body).2).length := by omega
      rw [hmin] at hp
      exact hp

/-- C9: whenever `sml_findSection` returns a section, that section comes
from a section-table entry whose declared virtual address is nonzero: an
entry with a zero relative virtual address is never reported. -/
theorem findSection_never_returns_zero_va_entry (img : SMLImage) (s : List Nat)
    (sec : SMLSection) (h : (sml_findSection img s).1 = some sec) :
    ∃ ntOff, checkHeaders img = some ntOff ∧
      ∃ i, i < readLE img.mem (ntOff + 6) 2 ∧
        entryVA img.mem (ntOff + 24 + readLE img.mem (ntOff + 20) 2 + 40 * i) ≠ 0 ∧
        sec.start = entryStart img (ntOff + 24 + readLE img.mem (ntOff + 20) 2 + 40 * i) ∧
        sec.size = entrySize img.mem (ntOff + 24 + readLE img.mem (ntOff + 20) 2 + 40 * i) := by
  cases hch : checkHeaders img with
  | none =>
    rw [sml_findSection_none_of_checkHeaders img s hch] at h
    exact Option.noConfusion h
  | some ntOff =>
    refine ⟨ntOff, rfl, ?_⟩
    rw [sml_findSection_eq_loop img s ntOff hch, findSectionFrom_some_iff] at h
    obtain ⟨i, hik, hit, hmin, hsec⟩ := h
    exact ⟨i, hik, hit.1, by rw [hsec], by rw [hsec]⟩

/-- C9, witness at a concrete image with one matching nonzero-VA entry. -/
theorem findSection_never_returns_zero_va_entry_witness :
    ∃ ntOff, checkHeaders img8 = some ntOff ∧
      ∃ i, i < readLE img8.mem (ntOff + 6) 2 ∧
        entryVA img8.mem (ntOff + 24 + readLE img8.mem (ntOff + 20) 2 + 40 * i) ≠ 0 ∧
        (SMLSection.mk 4194560 16).start =
          entryStart img8 (ntOff + 24 + readLE img8.mem (ntOff + 20) 2 + 40 * i) ∧
        (SMLSection.mk 4194560 16).size =
          entrySize img8.mem (ntOff + 24 + readLE img8.mem (ntOff + 20) 2 + 40 * i) :=
  findSection_never_returns_zero_va_entry img8 [65, 66, 67, 68, 69, 70, 71, 72]
    ⟨4194560, 16⟩ (by decide)

/-- C10: `sml_copyImageName` produces no return value on any input — its
body is empty, so no control path executes a `return` statement, contrary
to the claim that every path produces a well-defined pointer value. -/
theorem copyImageName_produces_no_value : ∀ img : SMLImage, sml_copyImageName img = none :=
  fun _ => rfl
